import Mathlib

/-!
Verification of the `bn::adjacency_list` directed-graph container
(`src/bayesian/network/adjacency_list.hpp`).

Node and arc handles (`node_ptr` / `arc_ptr`, shared pointers compared by
identity) are modelled as natural-number identities.  The four private data
members are modelled as:

* `stored_node_ : std::list<node_ptr>`  →  `List Nat` (insertion order);
* `stored_arc_  : std::list<arc_ptr>`   →  `List Nat` (insertion order);
* `endpoint_dic_ : std::unordered_map<arc, (node, node)>`
    →  an association list `List (Nat × Nat × Nat)` with unique keys
       (`unordered_map` iteration order is unspecified; the model fixes the
       order in which entries sit in the list, which is legitimate because
       the source treats that order as unspecified as well);
* `adjacency_ : std::unordered_map<node, std::list<(node, arc)>>`
    →  an association list `List (Nat × List (Nat × Nat))` with unique keys.

`unordered_map::operator[]` (insert-or-update / create-empty-bucket),
`unordered_map::erase`, `std::list::push_back`, `std::find` from `begin`
(erase first occurrence) and `std::find` from `crbegin` (erase last
occurrence) are each modelled by a dedicated list function below.
-/

namespace AdjList

/-- `std::unordered_map::find`: value stored under key `k`, if any. -/
def lookupKey (k : Nat) : List (Nat × α) → Option α
  | [] => none
  | (k1, v) :: rest => if k1 = k then some v else lookupKey k rest

/-- `std::unordered_map::erase(k)`: drop the entry keyed `k` (first such
entry; keys are unique in all reachable states). -/
def eraseKey (k : Nat) : List (Nat × α) → List (Nat × α)
  | [] => []
  | (k1, v) :: rest => if k1 = k then rest else (k1, v) :: eraseKey k rest

/-- `std::unordered_map::operator[] = v`: update the entry keyed `k` if
present, otherwise append a fresh entry. -/
def insertOrUpdate (k : Nat) (v : α) : List (Nat × α) → List (Nat × α)
  | [] => [(k, v)]
  | (k1, v1) :: rest =>
    if k1 = k then (k, v) :: rest else (k1, v1) :: insertOrUpdate k v rest

/-- `std::find` from `begin` followed by `erase`: remove the first
occurrence of `x`. -/
def eraseFirst [DecidableEq α] (x : α) : List α → List α
  | [] => []
  | y :: rest => if y = x then rest else y :: eraseFirst x rest

/-- `std::find` from `crbegin` followed by `erase((++it).base())`: remove
the last occurrence of `x`. -/
def eraseLast (x : Nat) (l : List Nat) : List Nat :=
  (eraseFirst x l.reverse).reverse

/-- `adjacency_[f].push_back e`: create the bucket of `f` if absent, then
append `e` to it. -/
def bucketPush (f : Nat) (e : Nat × Nat) :
    List (Nat × List (Nat × Nat)) → List (Nat × List (Nat × Nat))
  | [] => [(f, [e])]
  | (k, b) :: rest =>
    if k = f then (k, b ++ [e]) :: rest else (k, b) :: bucketPush f e rest

/-- `adjacency_[f]` evaluated for its side effect only: create the bucket of
`f` if absent (used to model a failure after bucket creation but before the
`push_back` into it). -/
def ensureBucket (f : Nat) :
    List (Nat × List (Nat × Nat)) → List (Nat × List (Nat × Nat))
  | [] => [(f, [])]
  | (k, b) :: rest =>
    if k = f then (k, b) :: rest else (k, b) :: ensureBucket f rest

/-- Erase the first occurrence of the pair `x` inside the bucket of `f`. -/
def eraseBucketEntry (f : Nat) (x : Nat × Nat) :
    List (Nat × List (Nat × Nat)) → List (Nat × List (Nat × Nat))
  | [] => []
  | (k, b) :: rest =>
    if k = f then (k, eraseFirst x b) :: rest
    else (k, b) :: eraseBucketEntry f x rest

/-- The four private data members of `bn::adjacency_list`. -/
structure GState where
  stored_node : List Nat
  stored_arc : List Nat
  endpoint_dic : List (Nat × Nat × Nat)
  adjacency : List (Nat × List (Nat × Nat))
deriving Repr, DecidableEq

/-- The default-constructed container: everything empty. -/
def GState.empty : GState := ⟨[], [], [], []⟩

/-- `add_node(node)` (lines 80–94): `stored_node_.push_back(node); `
`adjacency_[node].clear();` — note that `operator[]` creates the bucket if
absent and `clear` empties it if present. -/
def add_node (node : Nat) (s : GState) : GState :=
  { s with
      stored_node := s.stored_node ++ [node]
      adjacency := insertOrUpdate node [] s.adjacency }

/-- `add_arc(arc, from, to)` (lines 155–181), the non-throwing execution:
`stored_arc_.push_back(arc); endpoint_dic_[arc] = (from, to); `
`adjacency_[from].push_back((to, arc));`. -/
def add_arc (arc f t : Nat) (s : GState) : GState :=
  { s with
      stored_arc := s.stored_arc ++ [arc]
      endpoint_dic := insertOrUpdate arc (f, t) s.endpoint_dic
      adjacency := bucketPush f (t, arc) s.adjacency }

/-- `add_arc` with an injected resource failure (a `std::bad_alloc` raised
by one of the four allocating steps); returns `false` when the exception
propagates out of the function.  Step 0: `stored_arc_.push_back` throws
(the list is unchanged).  Step 1: insertion of the key `arc` into
`endpoint_dic_` by `operator[]` throws (possible only when the key is
absent — an assignment to an existing entry is a non-allocating
`shared_ptr`-pair move); the `catch` pops `stored_arc_`.  Step 2: creation
of the bucket of `from` by `operator[]` throws (possible only when the
bucket is absent); the inner `catch` erases the endpoint entry, the outer
one pops `stored_arc_`.  Step 3: `push_back` into the bucket throws after
the bucket exists; same two rollbacks run, and the (possibly just created)
bucket remains. -/
def add_arc_f (inj : Option Nat) (arc f t : Nat) (s : GState) :
    Bool × GState :=
  if inj = some 0 then (false, s)
  else if inj = some 1 ∧ (lookupKey arc s.endpoint_dic).isNone then (false, s)
  else if inj = some 2 ∧ (lookupKey f s.adjacency).isNone then
    (false, { s with
        endpoint_dic := eraseKey arc (insertOrUpdate arc (f, t) s.endpoint_dic) })
  else if inj = some 3 then
    (false, { s with
        endpoint_dic := eraseKey arc (insertOrUpdate arc (f, t) s.endpoint_dic)
        adjacency := ensureBucket f s.adjacency })
  else (true, add_arc arc f t s)

/-- The private `remove_arc(arc, from, to)` (lines 334–351): three lookups
(arc in `stored_arc_` from the back, bucket of `from`, pair `(to, arc)` in
that bucket), each failure returning `false` without any mutation; then the
three erasures. -/
def remove_arc_prim (arc f t : Nat) (s : GState) : Bool × GState :=
  if arc ∈ s.stored_arc then
    match lookupKey f s.adjacency with
    | none => (false, s)
    | some bucket =>
      if (t, arc) ∈ bucket then
        (true,
          { s with
              stored_arc := eraseLast arc s.stored_arc
              endpoint_dic := eraseKey arc s.endpoint_dic
              adjacency := eraseBucketEntry f (t, arc) s.adjacency })
      else (false, s)
  else (false, s)

/-- The public `remove_arc(arc)` (lines 189–195): look the arc up in
`endpoint_dic_` and delegate to the private primitive with the indexed
endpoints. -/
def remove_arc (arc : Nat) (s : GState) : Bool × GState :=
  match lookupKey arc s.endpoint_dic with
  | none => (false, s)
  | some (f, t) => remove_arc_prim arc f t s

/-- The public `remove_arc(from, to)` (lines 204–214): `find_if` over
`endpoint_dic_` in iteration order for the first entry whose endpoints are
`(from, to)`, then delegate to the private primitive. -/
def remove_arc_ft (f t : Nat) (s : GState) : Bool × GState :=
  match s.endpoint_dic.find? (fun e => e.2.1 == f && e.2.2 == t) with
  | none => (false, s)
  | some e => remove_arc_prim e.1 f t s

/-- The cascading loop of `remove_node` (lines 113–130): iterate over the
snapshot of `stored_arc_`; an arc missing from `endpoint_dic_` trips the
`is_error` wire (`none`), an incident arc is removed through the public
one-argument `remove_arc`, whose `false` also trips it. -/
def cascade (node : Nat) : List Nat → GState → Option GState
  | [], s => some s
  | arc :: rest, s =>
    match lookupKey arc s.endpoint_dic with
    | none => none
    | some (f, t) =>
      if f = node ∨ t = node then
        match remove_arc arc s with
        | (true, s1) => cascade node rest s1
        | (false, _) => none
      else cascade node rest s

/-- `remove_node(node)` (lines 102–145): reverse `find` in `stored_node_`;
on a hit, run the cascade over a snapshot of `stored_arc_`; on any cascade
error restore the backups (i.e. return the pre-call state) and `false`;
otherwise erase the node's adjacency bucket and the found (last) occurrence
in `stored_node_`. -/
def remove_node (node : Nat) (s : GState) : Bool × GState :=
  if node ∈ s.stored_node then
    match cascade node s.stored_arc s with
    | none => (false, s)
    | some s1 =>
      (true,
        { s1 with
            adjacency := eraseKey node s1.adjacency
            stored_node := eraseLast node s1.stored_node })
  else (false, s)

/-- `is_adjacent(from, to)` (lines 223–233). -/
def is_adjacent (f t : Nat) (s : GState) : Option Nat :=
  (s.endpoint_dic.find? (fun e => e.2.1 == f && e.2.2 == t)).map (·.1)

/-- `is_connect(node, arc)` (lines 244–252): `1` when `node` is the
indexed source, else `-1` when it is the indexed target, else `0`. -/
def is_connect (node arc : Nat) (s : GState) : Int :=
  match lookupKey arc s.endpoint_dic with
  | none => 0
  | some (f, t) => if f = node then 1 else if t = node then -1 else 0

/-- `source(arc)` (lines 260–266): `none` models the `nullptr` returned
when the arc has no endpoint entry. -/
def source (arc : Nat) (s : GState) : Option Nat :=
  (lookupKey arc s.endpoint_dic).map (·.1)

/-- `target(arc)` (lines 274–280). -/
def target (arc : Nat) (s : GState) : Option Nat :=
  (lookupKey arc s.endpoint_dic).map (·.2)

/-- `parent_nodes(child)` (lines 288–301): scan of `endpoint_dic_`. -/
def parent_nodes (child : Nat) (s : GState) : List Nat :=
  (s.endpoint_dic.filter (fun e => e.2.2 == child)).map (·.2.1)

/-- `child_nodes(parent)` (lines 309–319): `adjacency_.at(parent)` throws
`std::out_of_range` when `parent` has no bucket — modelled as `none`;
otherwise the bucket's target components in insertion order. -/
def child_nodes (parent : Nat) (s : GState) : Option (List Nat) :=
  (lookupKey parent s.adjacency).map (·.map Prod.fst)

/-- `all_node()` (lines 322–325). -/
def all_node (s : GState) : List Nat := s.stored_node

/-- `all_arc()` (lines 328–331). -/
def all_arc (s : GState) : List Nat := s.stored_arc

/-- One call of the public mutating interface. -/
inductive Op where
  | addNode (n : Nat)
  | addArc (a f t : Nat)
  | removeNode (n : Nat)
  | removeArc (a : Nat)
  | removeArcFT (f t : Nat)
deriving Repr, DecidableEq

/-- State reached after one operation (a failed removal reports `false`
and leaves the state as it was, so only the state component is kept). -/
def applyOp (op : Op) (s : GState) : GState :=
  match op with
  | .addNode n => add_node n s
  | .addArc a f t => add_arc a f t s
  | .removeNode n => (remove_node n s).2
  | .removeArc a => (remove_arc a s).2
  | .removeArcFT f t => (remove_arc_ft f t s).2

/-- Run a sequence of operations from a given state. -/
def runFrom (s : GState) : List Op → GState
  | [] => s
  | op :: rest => runFrom (applyOp op s) rest

/-- Run a sequence of operations from the default-constructed container. -/
def run (ops : List Op) : GState := runFrom GState.empty ops

/-- Usage discipline under which the cross-structure arc invariant is
preserved: a node may be (re-)registered only while it is not the indexed
source of any endpoint entry (re-registering a source would clear its
bucket), and an arc may be registered only while it is not in the
Registered Arc Set (re-registering an arc duplicates its arc-set entry and
can relocate its bucket entry). -/
def okOp (s : GState) : Op → Bool
  | .addNode n => s.endpoint_dic.all (fun e => e.2.1 != n)
  | .addArc a _ _ => !(s.stored_arc.contains a)
  | _ => true

/-- Every operation of the sequence respects `okOp` in the state where it
runs. -/
def validFrom : GState → List Op → Bool
  | _, [] => true
  | s, op :: rest => okOp s op && validFrom (applyOp op s) rest

/-- No `addArc` of the sequence registers a self-loop. -/
def selfLoopFree : List Op → Bool
  | [] => true
  | .addArc _ f t :: rest => f != t && selfLoopFree rest
  | _ :: rest => selfLoopFree rest

/-- The cross-structure consistency invariant of the container (decidable,
bounded form).  Clauses: the Registered Arc Set has no duplicates; the two
maps have unique keys; every registered arc has an endpoint entry and
conversely; every endpoint entry has a matching `(to, arc)` pair in the
bucket of its source; every bucket pair points back to a matching endpoint
entry; buckets have no duplicate pairs. -/
def Inv (s : GState) : Prop :=
  s.stored_arc.Nodup
  ∧ (s.endpoint_dic.map Prod.fst).Nodup
  ∧ (s.adjacency.map Prod.fst).Nodup
  ∧ (∀ a ∈ s.stored_arc, (lookupKey a s.endpoint_dic).isSome = true)
  ∧ (∀ e ∈ s.endpoint_dic, e.1 ∈ s.stored_arc)
  ∧ (∀ e ∈ s.endpoint_dic, (e.2.2, e.1) ∈ (lookupKey e.2.1 s.adjacency).getD [])
  ∧ (∀ p ∈ s.adjacency, ∀ e ∈ p.2, lookupKey e.2 s.endpoint_dic = some (p.1, e.1))
  ∧ (∀ p ∈ s.adjacency, p.2.Nodup)

instance (s : GState) : Decidable (Inv s) := by
  unfold Inv; infer_instance

/-- No endpoint entry is a self-loop. -/
def NoLoops (s : GState) : Prop :=
  ∀ e ∈ s.endpoint_dic, e.2.1 ≠ e.2.2

/-- Arc `a` appears (as the arc component of some pair) in the adjacency
bucket of node `n`. -/
def inBucketOf (s : GState) (n a : Nat) : Prop :=
  ∃ t, (t, a) ∈ (lookupKey n s.adjacency).getD []

/-- The spec's wording of invariant 1: an arc identity appears in the
Registered Arc Set iff it appears in the Endpoint Index iff it appears in
exactly one Adjacency Index bucket, namely the bucket of its source. -/
def arcIffChain (s : GState) : Prop :=
  ∀ a,
    ((a ∈ s.stored_arc) ↔ (lookupKey a s.endpoint_dic).isSome = true)
    ∧ ((a ∈ s.stored_arc) ↔
        ∃ n, inBucketOf s n a ∧ ∀ m, inBucketOf s m a → m = n)
    ∧ (∀ f t, lookupKey a s.endpoint_dic = some (f, t) → inBucketOf s f a)

/-- Arc `b` is incident to node `nd` according to the Endpoint Index of
`s`. -/
def incident (s : GState) (nd b : Nat) : Prop :=
  ∃ f t, lookupKey b s.endpoint_dic = some (f, t) ∧ (f = nd ∨ t = nd)

/-! ### Lemmas about the association-list primitives -/

theorem mem_of_lookupKey {l : List (Nat × α)} {k : Nat} {v : α}
    (h : lookupKey k l = some v) : (k, v) ∈ l := by
  induction l with
  | nil => simp [lookupKey] at h
  | cons p rest ih =>
    obtain ⟨k1, v1⟩ := p
    by_cases hk : k1 = k
    · subst hk
      simp [lookupKey] at h
      simp [h]
    · simp [lookupKey, hk] at h
      exact List.mem_cons_of_mem _ (ih h)

theorem lookupKey_isSome_of_mem {l : List (Nat × α)} {k : Nat} {v : α}
    (h : (k, v) ∈ l) : (lookupKey k l).isSome = true := by
  induction l with
  | nil => simp at h
  | cons p rest ih =>
    obtain ⟨k1, v1⟩ := p
    by_cases hk : k1 = k
    · simp [lookupKey, hk]
    · rcases List.mem_cons.mp h with h1 | h1
      · exact absurd (congrArg Prod.fst h1).symm hk
      · simpa [lookupKey, hk] using ih h1

theorem lookupKey_of_mem {l : List (Nat × α)} {k : Nat} {v : α}
    (hnd : (l.map Prod.fst).Nodup) (h : (k, v) ∈ l) :
    lookupKey k l = some v := by
  induction l with
  | nil => simp at h
  | cons p rest ih =>
    obtain ⟨k1, v1⟩ := p
    simp only [List.map_cons, List.nodup_cons] at hnd
    rcases List.mem_cons.mp h with h1 | h1
    · injection h1 with hk hv
      subst hk; subst hv
      simp [lookupKey]
    · by_cases hk : k1 = k
      · subst hk
        exact absurd (List.mem_map_of_mem Prod.fst h1) hnd.1
      · simpa [lookupKey, hk] using ih hnd.2 h1

theorem lookupKey_eraseKey_ne {l : List (Nat × α)} {k m : Nat}
    (h : m ≠ k) : lookupKey m (eraseKey k l) = lookupKey m l := by
  induction l with
  | nil => rfl
  | cons p rest ih =>
    obtain ⟨k1, v1⟩ := p
    by_cases hk : k1 = k
    · subst hk
      have hm : ¬ k1 = m := fun hh => h hh.symm
      simp [eraseKey, lookupKey, hm]
    · by_cases hm : k1 = m
      · simp [eraseKey, lookupKey, hk, hm, h]
      · simp [eraseKey, lookupKey, hk, hm, ih]

theorem lookupKey_eraseKey_self {l : List (Nat × α)} {k : Nat}
    (hnd : (l.map Prod.fst).Nodup) : lookupKey k (eraseKey k l) = none := by
  induction l with
  | nil => rfl
  | cons p rest ih =>
    obtain ⟨k1, v1⟩ := p
    simp only [List.map_cons, List.nodup_cons] at hnd
    by_cases hk : k1 = k
    · subst hk
      simp only [eraseKey, if_pos rfl]
      cases hlk : lookupKey k1 rest with
      | none => exact hlk
      | some v =>
        exact absurd (List.mem_map_of_mem Prod.fst (mem_of_lookupKey hlk)) hnd.1
    · simpa [eraseKey, hk, lookupKey] using ih hnd.2

theorem eraseKey_sublist (k : Nat) (l : List (Nat × α)) :
    (eraseKey k l).Sublist l := by
  induction l with
  | nil => simp [eraseKey]
  | cons p rest ih =>
    obtain ⟨k1, v1⟩ := p
    by_cases hk : k1 = k
    · simp only [eraseKey, if_pos hk]
      exact List.sublist_cons_self _ _
    · simp only [eraseKey, if_neg hk]
      exact ih.cons₂ (k1, v1)

theorem mem_of_mem_eraseKey {l : List (Nat × α)} {k : Nat} {p : Nat × α}
    (h : p ∈ eraseKey k l) : p ∈ l :=
  (eraseKey_sublist k l).mem h

theorem keys_eraseKey_nodup {l : List (Nat × α)} {k : Nat}
    (hnd : (l.map Prod.fst).Nodup) : ((eraseKey k l).map Prod.fst).Nodup :=
  ((eraseKey_sublist k l).map Prod.fst).nodup hnd

theorem lookupKey_insertOrUpdate_self (k : Nat) (v : α) (l : List (Nat × α)) :
    lookupKey k (insertOrUpdate k v l) = some v := by
  induction l with
  | nil => simp [insertOrUpdate, lookupKey]
  | cons p rest ih =>
    obtain ⟨k1, v1⟩ := p
    by_cases hk : k1 = k <;> simp [insertOrUpdate, lookupKey, hk, ih]

theorem lookupKey_insertOrUpdate_ne {k m : Nat} (v : α) {l : List (Nat × α)}
    (h : m ≠ k) : lookupKey m (insertOrUpdate k v l) = lookupKey m l := by
  have hkm : ¬ k = m := fun hh => h hh.symm
  induction l with
  | nil => simp [insertOrUpdate, lookupKey, hkm]
  | cons p rest ih =>
    obtain ⟨k1, v1⟩ := p
    by_cases hk : k1 = k
    · subst hk
      simp [insertOrUpdate, lookupKey, hkm]
    · by_cases hm : k1 = m
      · simp [insertOrUpdate, lookupKey, hk, hm, h]
      · simp [insertOrUpdate, lookupKey, hk, hm, ih]

theorem mem_insertOrUpdate {l : List (Nat × α)} {k : Nat} {v : α}
    {p : Nat × α} (h : p ∈ insertOrUpdate k v l) : p = (k, v) ∨ p ∈ l := by
  induction l with
  | nil => simpa [insertOrUpdate] using h
  | cons q rest ih =>
    obtain ⟨k1, v1⟩ := q
    by_cases hk : k1 = k
    · subst hk
      rcases List.mem_cons.mp (by simpa [insertOrUpdate] using h) with h1 | h1
      · exact Or.inl h1
      · exact Or.inr (List.mem_cons_of_mem _ h1)
    · rcases List.mem_cons.mp (by simpa [insertOrUpdate, hk] using h) with h1 | h1
      · exact Or.inr (by simp [h1])
      · rcases ih h1 with h2 | h2
        · exact Or.inl h2
        · exact Or.inr (List.mem_cons_of_mem _ h2)

theorem keys_insertOrUpdate_subset {l : List (Nat × α)} {k : Nat} {v : α}
    {m : Nat} (h : m ∈ (insertOrUpdate k v l).map Prod.fst) :
    m = k ∨ m ∈ l.map Prod.fst := by
  rcases List.mem_map.mp h with ⟨p, hp, hm⟩
  rcases mem_insertOrUpdate hp with h1 | h1
  · exact Or.inl (hm ▸ h1 ▸ rfl)
  · exact Or.inr (hm ▸ List.mem_map_of_mem Prod.fst h1)

theorem keys_insertOrUpdate_nodup {l : List (Nat × α)} {k : Nat} {v : α}
    (hnd : (l.map Prod.fst).Nodup) :
    ((insertOrUpdate k v l).map Prod.fst).Nodup := by
  induction l with
  | nil => simp [insertOrUpdate]
  | cons p rest ih =>
    obtain ⟨k1, v1⟩ := p
    simp only [List.map_cons, List.nodup_cons] at hnd
    by_cases hk : k1 = k
    · subst hk
      simpa [insertOrUpdate, List.nodup_cons] using hnd
    · simp only [insertOrUpdate, if_neg hk, List.map_cons, List.nodup_cons]
      refine ⟨?_, ih hnd.2⟩
      intro hmem
      rcases keys_insertOrUpdate_subset hmem with h1 | h1
      · exact hk h1
      · exact hnd.1 h1

theorem not_mem_eraseKey_self {l : List (Nat × α)} {k : Nat} {v : α}
    (hnd : (l.map Prod.fst).Nodup) : (k, v) ∉ eraseKey k l := by
  intro hmem
  have := lookupKey_isSome_of_mem hmem
  rw [lookupKey_eraseKey_self hnd] at this
  simp at this

theorem mem_eraseKey_of_mem_ne {l : List (Nat × α)} {k : Nat} {p : Nat × α}
    (hp : p ∈ l) (hne : p.1 ≠ k) : p ∈ eraseKey k l := by
  induction l with
  | nil => simp at hp
  | cons q rest ih =>
    obtain ⟨k1, v1⟩ := q
    by_cases hk : k1 = k
    · subst hk
      rcases List.mem_cons.mp hp with h1 | h1
      · exact absurd (congrArg Prod.fst h1) hne
      · simpa [eraseKey] using h1
    · rcases List.mem_cons.mp hp with h1 | h1
      · simp [eraseKey, hk, h1]
      · simpa [eraseKey, hk] using Or.inr (ih h1)

theorem eraseFirst_sublist [DecidableEq α] (x : α) (l : List α) :
    (eraseFirst x l).Sublist l := by
  induction l with
  | nil => simp [eraseFirst]
  | cons y rest ih =>
    by_cases hy : y = x
    · simp only [eraseFirst, if_pos hy]
      exact List.sublist_cons_self _ _
    · simp only [eraseFirst, if_neg hy]
      exact ih.cons₂ y

theorem mem_of_mem_eraseFirst [DecidableEq α] {x b : α} {l : List α}
    (h : b ∈ eraseFirst x l) : b ∈ l :=
  (eraseFirst_sublist x l).mem h

theorem eraseFirst_of_not_mem [DecidableEq α] {x : α} {l : List α}
    (h : x ∉ l) : eraseFirst x l = l := by
  induction l with
  | nil => rfl
  | cons y rest ih =>
    have hy : y ≠ x := fun hh => h (hh ▸ List.mem_cons_self y rest)
    have hx : x ∉ rest := fun hh => h (List.mem_cons_of_mem _ hh)
    simp [eraseFirst, hy, ih hx]

theorem mem_eraseFirst_iff [DecidableEq α] {x b : α} {l : List α}
    (hnd : l.Nodup) : b ∈ eraseFirst x l ↔ b ∈ l ∧ b ≠ x := by
  induction l with
  | nil => simp [eraseFirst]
  | cons y rest ih =>
    rw [List.nodup_cons] at hnd
    by_cases hy : y = x
    · subst hy
      simp only [eraseFirst, if_pos rfl]
      constructor
      · intro hb
        exact ⟨List.mem_cons_of_mem _ hb, fun hh => hnd.1 (hh ▸ hb)⟩
      · rintro ⟨hb, hne⟩
        rcases List.mem_cons.mp hb with h1 | h1
        · exact absurd h1 hne
        · exact h1
    · simp only [eraseFirst, if_neg hy, List.mem_cons, ih hnd.2]
      constructor
      · rintro (rfl | ⟨hb, hne⟩)
        · exact ⟨Or.inl rfl, fun hh => hy hh⟩
        · exact ⟨Or.inr hb, hne⟩
      · rintro ⟨rfl | hb, hne⟩
        · exact Or.inl rfl
        · exact Or.inr ⟨hb, hne⟩

theorem nodup_eraseFirst [DecidableEq α] (x : α) {l : List α}
    (hnd : l.Nodup) : (eraseFirst x l).Nodup :=
  (eraseFirst_sublist x l).nodup hnd

theorem nodup_eraseLast (x : Nat) {l : List Nat} (hnd : l.Nodup) :
    (eraseLast x l).Nodup := by
  unfold eraseLast
  exact List.nodup_reverse.mpr (nodup_eraseFirst x (List.nodup_reverse.mpr hnd))

theorem mem_eraseLast_iff {x b : Nat} {l : List Nat} (hnd : l.Nodup) :
    b ∈ eraseLast x l ↔ b ∈ l ∧ b ≠ x := by
  unfold eraseLast
  rw [List.mem_reverse, mem_eraseFirst_iff (List.nodup_reverse.mpr hnd),
    List.mem_reverse]

theorem eraseFirst_append_of_not_mem [DecidableEq α] {x : α} {l1 l2 : List α}
    (h : x ∉ l1) : eraseFirst x (l1 ++ l2) = l1 ++ eraseFirst x l2 := by
  induction l1 with
  | nil => rfl
  | cons y rest ih =>
    have hy : y ≠ x := fun hh => h (hh ▸ List.mem_cons_self y rest)
    have hx : x ∉ rest := fun hh => h (List.mem_cons_of_mem _ hh)
    simp [eraseFirst, hy, ih hx]

/-- The last occurrence of `x` is the one removed: any suffix after it is
untouched. -/
theorem eraseLast_decomp {x : Nat} {l1 l2 : List Nat} (h : x ∉ l2) :
    eraseLast x (l1 ++ x :: l2) = l1 ++ l2 := by
  unfold eraseLast
  rw [List.reverse_append, List.reverse_cons, List.append_assoc,
    eraseFirst_append_of_not_mem (by simpa using h)]
  simp [eraseFirst]

theorem eraseLast_append_singleton {x : Nat} {l : List Nat} :
    eraseLast x (l ++ [x]) = l := by
  simpa using @eraseLast_decomp x l [] (by simp)

/-! Bucket-map lemmas. -/

theorem lookupKey_bucketPush_self (f : Nat) (e : Nat × Nat)
    (l : List (Nat × List (Nat × Nat))) :
    lookupKey f (bucketPush f e l) = some ((lookupKey f l).getD [] ++ [e]) := by
  induction l with
  | nil => simp [bucketPush, lookupKey]
  | cons p rest ih =>
    obtain ⟨k, b⟩ := p
    by_cases hk : k = f
    · simp [bucketPush, lookupKey, hk]
    · simp [bucketPush, lookupKey, hk, ih]

theorem lookupKey_bucketPush_ne {f m : Nat} (e : Nat × Nat)
    {l : List (Nat × List (Nat × Nat))} (h : m ≠ f) :
    lookupKey m (bucketPush f e l) = lookupKey m l := by
  have hfm : ¬ f = m := fun hh => h hh.symm
  induction l with
  | nil => simp [bucketPush, lookupKey, hfm]
  | cons p rest ih =>
    obtain ⟨k, b⟩ := p
    by_cases hk : k = f
    · subst hk
      have hm : ¬ k = m := fun hh => h hh.symm
      simp [bucketPush, lookupKey, hm]
    · by_cases hm : k = m
      · simp [bucketPush, lookupKey, hk, hm, h]
      · simp [bucketPush, lookupKey, hk, hm, ih]

theorem keys_bucketPush_subset {f : Nat} {e : Nat × Nat}
    {l : List (Nat × List (Nat × Nat))} {m : Nat}
    (h : m ∈ (bucketPush f e l).map Prod.fst) :
    m = f ∨ m ∈ l.map Prod.fst := by
  induction l with
  | nil =>
    simp [bucketPush] at h
    exact Or.inl h
  | cons p rest ih =>
    obtain ⟨k, b⟩ := p
    by_cases hk : k = f
    · subst hk
      simpa [bucketPush] using h
    · simp only [bucketPush, if_neg hk, List.map_cons, List.mem_cons] at h
      rcases h with h1 | h1
      · simp [h1]
      · rcases ih h1 with h2 | h2
        · exact Or.inl h2
        · simp [h2]

theorem keys_bucketPush_nodup {f : Nat} {e : Nat × Nat}
    {l : List (Nat × List (Nat × Nat))}
    (hnd : (l.map Prod.fst).Nodup) :
    ((bucketPush f e l).map Prod.fst).Nodup := by
  induction l with
  | nil => simp [bucketPush]
  | cons p rest ih =>
    obtain ⟨k, b⟩ := p
    simp only [List.map_cons, List.nodup_cons] at hnd
    by_cases hk : k = f
    · subst hk
      simpa [bucketPush, List.nodup_cons] using hnd
    · simp only [bucketPush, if_neg hk, List.map_cons, List.nodup_cons]
      refine ⟨?_, ih hnd.2⟩
      intro hmem
      rcases keys_bucketPush_subset hmem with h1 | h1
      · exact hk h1
      · exact hnd.1 h1

theorem mem_bucketPush {f : Nat} {e : Nat × Nat}
    {l : List (Nat × List (Nat × Nat))} {p : Nat × List (Nat × Nat)}
    (hnd : (l.map Prod.fst).Nodup) (h : p ∈ bucketPush f e l) :
    (p.1 = f ∧ p.2 = (lookupKey f l).getD [] ++ [e]) ∨ (p ∈ l ∧ p.1 ≠ f) := by
  induction l with
  | nil =>
    simp [bucketPush] at h
    simp [h, lookupKey]
  | cons q rest ih =>
    obtain ⟨k, b⟩ := q
    simp only [List.map_cons, List.nodup_cons] at hnd
    by_cases hk : k = f
    · subst hk
      rcases List.mem_cons.mp (by simpa [bucketPush] using h) with h1 | h1
      · left
        simp [h1, lookupKey]
      · right
        refine ⟨List.mem_cons_of_mem _ h1, ?_⟩
        intro hpf
        exact hnd.1 (hpf ▸ List.mem_map_of_mem Prod.fst h1)
    · rcases List.mem_cons.mp (by simpa [bucketPush, hk] using h) with h1 | h1
      · right
        exact ⟨by simp [h1], by simp [h1, hk]⟩
      · rcases ih hnd.2 h1 with ⟨h2, h3⟩ | ⟨h2, h3⟩
        · left
          refine ⟨h2, ?_⟩
          rwa [show lookupKey f ((k, b) :: rest) = lookupKey f rest from by
            simp [lookupKey, hk]]
        · exact Or.inr ⟨List.mem_cons_of_mem _ h2, h3⟩

theorem lookupKey_eraseBucketEntry_self (f : Nat) (x : Nat × Nat)
    (l : List (Nat × List (Nat × Nat))) :
    lookupKey f (eraseBucketEntry f x l) =
      (lookupKey f l).map (fun b => eraseFirst x b) := by
  induction l with
  | nil => simp [eraseBucketEntry, lookupKey]
  | cons p rest ih =>
    obtain ⟨k, b⟩ := p
    by_cases hk : k = f
    · simp [eraseBucketEntry, lookupKey, hk]
    · simp [eraseBucketEntry, lookupKey, hk, ih]

theorem lookupKey_eraseBucketEntry_ne {f m : Nat} (x : Nat × Nat)
    {l : List (Nat × List (Nat × Nat))} (h : m ≠ f) :
    lookupKey m (eraseBucketEntry f x l) = lookupKey m l := by
  induction l with
  | nil => rfl
  | cons p rest ih =>
    obtain ⟨k, b⟩ := p
    by_cases hk : k = f
    · subst hk
      have hm : ¬ k = m := fun hh => h hh.symm
      simp [eraseBucketEntry, lookupKey, hm]
    · by_cases hm : k = m
      · simp [eraseBucketEntry, lookupKey, hk, hm, fun hh : m = f => h hh]
      · simp [eraseBucketEntry, lookupKey, hk, hm, ih]

theorem keys_eraseBucketEntry (f : Nat) (x : Nat × Nat)
    (l : List (Nat × List (Nat × Nat))) :
    (eraseBucketEntry f x l).map Prod.fst = l.map Prod.fst := by
  induction l with
  | nil => rfl
  | cons p rest ih =>
    obtain ⟨k, b⟩ := p
    by_cases hk : k = f <;> simp [eraseBucketEntry, hk, ih]

theorem mem_eraseBucketEntry {f : Nat} {x : Nat × Nat}
    {l : List (Nat × List (Nat × Nat))} {p : Nat × List (Nat × Nat)}
    (hnd : (l.map Prod.fst).Nodup) (h : p ∈ eraseBucketEntry f x l) :
    (p ∈ l ∧ p.1 ≠ f) ∨
      (p.1 = f ∧ ∃ b, (f, b) ∈ l ∧ p.2 = eraseFirst x b) := by
  induction l with
  | nil => simp [eraseBucketEntry] at h
  | cons q rest ih =>
    obtain ⟨k, b⟩ := q
    simp only [List.map_cons, List.nodup_cons] at hnd
    by_cases hk : k = f
    · subst hk
      rcases List.mem_cons.mp (by simpa [eraseBucketEntry] using h) with h1 | h1
      · right
        exact ⟨by simp [h1], b, List.mem_cons_self _ _, by simp [h1]⟩
      · left
        refine ⟨List.mem_cons_of_mem _ h1, ?_⟩
        intro hpf
        exact hnd.1 (hpf ▸ List.mem_map_of_mem Prod.fst h1)
    · rcases List.mem_cons.mp (by simpa [eraseBucketEntry, hk] using h) with h1 | h1
      · left
        exact ⟨by simp [h1], by simp [h1, hk]⟩
      · rcases ih hnd.2 h1 with ⟨h2, h3⟩ | ⟨h2, b1, h3, h4⟩
        · exact Or.inl ⟨List.mem_cons_of_mem _ h2, h3⟩
        · exact Or.inr ⟨h2, b1, List.mem_cons_of_mem _ h3, h4⟩

/-! ### Preservation of the invariant by each operation -/

theorem Inv_empty : Inv GState.empty := by
  refine ⟨?_, ?_, ?_, ?_, ?_, ?_, ?_, ?_⟩ <;> simp [GState.empty]

/-- `add_node` preserves the invariant provided the node is not the
indexed source of any endpoint entry (otherwise the `clear` of its bucket
orphans those arcs). -/
theorem add_node_inv {s : GState} {n : Nat} (hInv : Inv s)
    (hn : ∀ e ∈ s.endpoint_dic, e.2.1 ≠ n) : Inv (add_node n s) := by
  obtain ⟨c1, c2, c3, c4, c5, c6, c7, c8⟩ := hInv
  refine ⟨by simpa [add_node] using c1, by simpa [add_node] using c2, ?_,
    by simpa [add_node] using c4, by simpa [add_node] using c5, ?_, ?_, ?_⟩
  · have hkeys : ((insertOrUpdate n ([] : List (Nat × Nat))
        s.adjacency).map Prod.fst).Nodup := keys_insertOrUpdate_nodup c3
    simpa [add_node] using hkeys
  · intro e he
    simp only [add_node] at he ⊢
    rw [lookupKey_insertOrUpdate_ne _ (hn e he)]
    exact c6 e he
  · intro p hp x hx
    simp only [add_node] at hp ⊢
    rcases mem_insertOrUpdate hp with h1 | h1
    · rw [h1] at hx
      simp at hx
    · exact c7 p h1 x hx
  · intro p hp
    simp only [add_node] at hp
    rcases mem_insertOrUpdate hp with h1 | h1
    · simp [h1]
    · exact c8 p h1

/-- `add_arc` preserves the invariant provided the arc is not already
registered. -/
theorem add_arc_inv {s : GState} {a f t : Nat} (hInv : Inv s)
    (ha : a ∉ s.stored_arc) : Inv (add_arc a f t s) := by
  obtain ⟨c1, c2, c3, c4, c5, c6, c7, c8⟩ := hInv
  refine ⟨?_, ?_, ?_, ?_, ?_, ?_, ?_, ?_⟩
  · simp only [add_arc]
    simp [List.nodup_append, c1, ha]
  · simp only [add_arc]
    exact keys_insertOrUpdate_nodup c2
  · simp only [add_arc]
    exact keys_bucketPush_nodup c3
  · intro b hb
    simp only [add_arc] at hb ⊢
    rcases List.mem_append.mp hb with h1 | h1
    · have hba : b ≠ a := fun hh => ha (hh ▸ h1)
      rw [lookupKey_insertOrUpdate_ne _ hba]
      exact c4 b h1
    · simp only [List.mem_singleton] at h1
      subst h1
      simp [lookupKey_insertOrUpdate_self]
  · intro e he
    simp only [add_arc] at he ⊢
    rcases mem_insertOrUpdate he with h1 | h1
    · simp [h1]
    · exact List.mem_append_left _ (c5 e h1)
  · intro e he
    simp only [add_arc] at he ⊢
    rcases mem_insertOrUpdate he with h1 | h1
    · subst h1
      simp only
      rw [lookupKey_bucketPush_self]
      simp
    · by_cases hef : e.2.1 = f
      · rw [hef, lookupKey_bucketPush_self]
        have h6 := c6 e h1
        rw [hef] at h6
        cases hlk : lookupKey f s.adjacency with
        | none =>
          rw [hlk] at h6
          simp at h6
        | some b =>
          rw [hlk] at h6
          simp only [Option.getD_some] at h6 ⊢
          exact List.mem_append_left _ h6
      · rw [lookupKey_bucketPush_ne _ hef]
        exact c6 e h1
  · intro p hp x hx
    simp only [add_arc] at hp ⊢
    rcases mem_bucketPush c3 hp with ⟨hpf, hpb⟩ | ⟨hpl, hpf⟩
    · rw [hpb] at hx
      rcases List.mem_append.mp hx with h1 | h1
      · cases hlk : lookupKey f s.adjacency with
        | none =>
          rw [hlk] at h1
          simp at h1
        | some b =>
          rw [hlk] at h1
          simp only [Option.getD_some] at h1
          have hmemb : (f, b) ∈ s.adjacency := mem_of_lookupKey hlk
          have h7 := c7 (f, b) hmemb x h1
          have hxa : x.2 ≠ a := by
            intro hh
            have h5 := c5 _ (mem_of_lookupKey h7)
            rw [hh] at h5
            exact ha h5
          rw [lookupKey_insertOrUpdate_ne _ hxa, hpf]
          exact h7
      · simp only [List.mem_singleton] at h1
        subst h1
        simp only
        rw [lookupKey_insertOrUpdate_self, hpf]
    · have h7 := c7 p hpl x hx
      have hxa : x.2 ≠ a := by
        intro hh
        have h5 := c5 _ (mem_of_lookupKey h7)
        rw [hh] at h5
        exact ha h5
      rw [lookupKey_insertOrUpdate_ne _ hxa]
      exact h7
  · intro p hp
    simp only [add_arc] at hp
    rcases mem_bucketPush c3 hp with ⟨hpf, hpb⟩ | ⟨hpl, _⟩
    · rw [hpb]
      cases hlk : lookupKey f s.adjacency with
      | none => simp
      | some b =>
        simp only [Option.getD_some]
        have hmemb : (f, b) ∈ s.adjacency := mem_of_lookupKey hlk
        have hbnd := c8 _ hmemb
        have hnotin : (t, a) ∉ b := by
          intro hin
          have h7 := c7 (f, b) hmemb (t, a) hin
          exact ha (c5 _ (mem_of_lookupKey h7))
        simp [List.nodup_append, hbnd, hnotin]
    · exact c8 p hpl

/-- Under the invariant, the private removal primitive applied to an arc
that has the endpoint entry `(f, t)` succeeds, performs exactly the three
erasures, preserves the invariant, and touches no other arc: every arc
other than `a` keeps its arc-set membership and its endpoint entry, and
the Registered Node Set is untouched. -/
theorem remove_arc_prim_spec {s : GState} {a f t : Nat} (hInv : Inv s)
    (hep : lookupKey a s.endpoint_dic = some (f, t)) :
    ∃ s2,
      remove_arc_prim a f t s = (true, s2)
      ∧ s2.stored_node = s.stored_node
      ∧ Inv s2
      ∧ (∀ b, b ∈ s2.stored_arc ↔ (b ∈ s.stored_arc ∧ b ≠ a))
      ∧ (∀ b, b ≠ a → lookupKey b s2.endpoint_dic = lookupKey b s.endpoint_dic)
      ∧ lookupKey a s2.endpoint_dic = none
      ∧ (∀ e ∈ s2.endpoint_dic, e ∈ s.endpoint_dic) := by
  obtain ⟨c1, c2, c3, c4, c5, c6, c7, c8⟩ := hInv
  have hmem_ep : (a, (f, t)) ∈ s.endpoint_dic := mem_of_lookupKey hep
  have hmem_arc : a ∈ s.stored_arc := c5 _ hmem_ep
  have h6 := c6 _ hmem_ep
  cases hlk : lookupKey f s.adjacency with
  | none =>
    rw [hlk] at h6
    simp at h6
  | some B =>
    rw [hlk] at h6
    simp only [Option.getD_some] at h6
    have hBmem : (f, B) ∈ s.adjacency := mem_of_lookupKey hlk
    have hBnd : B.Nodup := c8 _ hBmem
    refine ⟨{ s with
        stored_arc := eraseLast a s.stored_arc
        endpoint_dic := eraseKey a s.endpoint_dic
        adjacency := eraseBucketEntry f (t, a) s.adjacency },
      ?_, rfl, ?_, ?_, ?_, ?_, ?_⟩
    · simp [remove_arc_prim, hmem_arc, hlk, h6]
    · -- the invariant for the post-state
      refine ⟨nodup_eraseLast a c1, keys_eraseKey_nodup c2, ?_, ?_, ?_, ?_, ?_, ?_⟩
      · rw [keys_eraseBucketEntry]
        exact c3
      · intro b hb
        rcases (mem_eraseLast_iff c1).mp hb with ⟨hb1, hb2⟩
        rw [lookupKey_eraseKey_ne hb2]
        exact c4 b hb1
      · rintro ⟨e1, e2⟩ he
        have he' := mem_of_mem_eraseKey he
        have hne : e1 ≠ a := by
          rintro rfl
          exact not_mem_eraseKey_self c2 he
        exact (mem_eraseLast_iff c1).mpr ⟨c5 _ he', hne⟩
      · rintro ⟨e1, e2⟩ he
        have he' := mem_of_mem_eraseKey he
        have hne : e1 ≠ a := by
          rintro rfl
          exact not_mem_eraseKey_self c2 he
        have h6e := c6 _ he'
        by_cases hef : e2.1 = f
        · have hgoal : (Option.map (fun b => eraseFirst (t, a) b)
              (lookupKey f s.adjacency)).getD [] = eraseFirst (t, a) B := by
            rw [hlk]
            rfl
          simp only
          rw [hef, lookupKey_eraseBucketEntry_self, hgoal]
          rw [hef, hlk] at h6e
          simp only [Option.getD_some] at h6e
          exact (mem_eraseFirst_iff hBnd).mpr
            ⟨h6e, fun hh => hne (congrArg Prod.snd hh)⟩
        · simp only at h6e ⊢
          rw [lookupKey_eraseBucketEntry_ne _ hef]
          exact h6e
      · intro p hp x hx
        rcases mem_eraseBucketEntry c3 hp with ⟨hpl, hpf⟩ | ⟨hpf, b1, hb1mem, hpb⟩
        · have h7 := c7 p hpl x hx
          have hxa : x.2 ≠ a := by
            intro hh
            rw [hh, hep] at h7
            exact hpf (congrArg Prod.fst (Option.some.inj h7)).symm
          rw [lookupKey_eraseKey_ne hxa]
          exact h7
        · have hb1 : b1 = B := by
            have := lookupKey_of_mem c3 hb1mem
            rw [hlk] at this
            exact (Option.some.inj this).symm
          rw [hpb, hb1] at hx
          rcases (mem_eraseFirst_iff hBnd).mp hx with ⟨hxB, hxne⟩
          have h7 := c7 (f, B) hBmem x hxB
          have hxa : x.2 ≠ a := by
            intro hh
            rw [hh, hep] at h7
            have ht : x.1 = t := (congrArg (fun q => q.2) (Option.some.inj h7)).symm
            exact hxne (Prod.ext ht hh)
          rw [lookupKey_eraseKey_ne hxa, hpf]
          exact h7
      · intro p hp
        rcases mem_eraseBucketEntry c3 hp with ⟨hpl, _⟩ | ⟨_, b1, hb1mem, hpb⟩
        · exact c8 p hpl
        · rw [hpb]
          exact nodup_eraseFirst _ (c8 _ hb1mem)
    · intro b
      exact mem_eraseLast_iff c1
    · intro b hb
      exact lookupKey_eraseKey_ne hb
    · exact lookupKey_eraseKey_self c2
    · intro e he
      exact mem_of_mem_eraseKey he

/-- Under the invariant, the cascading loop of `remove_node` never trips
its error wire: it removes exactly the incident arcs among the arcs of the
snapshot list, preserves the invariant, leaves the endpoint entries of the
surviving arcs intact, and never touches the Registered Node Set. -/
theorem cascade_spec (nd : Nat) (l : List Nat) :
    ∀ s : GState, Inv s → l.Nodup → (∀ b ∈ l, b ∈ s.stored_arc) →
      ∃ s1, cascade nd l s = some s1
        ∧ Inv s1
        ∧ (∀ b, b ∈ s1.stored_arc ↔
            (b ∈ s.stored_arc ∧ ¬(b ∈ l ∧ incident s nd b)))
        ∧ (∀ b, b ∈ s1.stored_arc →
            lookupKey b s1.endpoint_dic = lookupKey b s.endpoint_dic)
        ∧ (∀ e ∈ s1.endpoint_dic, e ∈ s.endpoint_dic)
        ∧ s1.stored_node = s.stored_node := by
  induction l with
  | nil =>
    intro s hInv _ _
    exact ⟨s, rfl, hInv, by simp, fun b _ => rfl, fun e he => he, rfl⟩
  | cons a rest ih =>
    intro s hInv hnd hsub
    obtain ⟨hna, hndrest⟩ := List.nodup_cons.mp hnd
    have hamem : a ∈ s.stored_arc := hsub a (List.mem_cons_self _ _)
    obtain ⟨ft, hep⟩ := Option.isSome_iff_exists.mp (hInv.2.2.2.1 a hamem)
    obtain ⟨f, t⟩ := ft
    have hinca : incident s nd a ↔ (f = nd ∨ t = nd) := by
      constructor
      · rintro ⟨f1, t1, hl, hor⟩
        rw [hep] at hl
        obtain ⟨h1, h2⟩ := Prod.mk.injEq .. ▸ Option.some.inj hl
        exact h1 ▸ h2 ▸ hor
      · intro hor
        exact ⟨f, t, hep, hor⟩
    by_cases hinc : f = nd ∨ t = nd
    · obtain ⟨s2, heq2, hnode2, hInv2, hmemb2, hpres2, hnone2, hsubep2⟩ :=
        remove_arc_prim_spec hInv hep
      have hra : remove_arc a s = (true, s2) := by
        simp [remove_arc, hep, heq2]
      have hcasc : cascade nd (a :: rest) s = cascade nd rest s2 := by
        simp [cascade, hep, hinc, hra]
      have hsub2 : ∀ b ∈ rest, b ∈ s2.stored_arc := by
        intro b hb
        exact (hmemb2 b).mpr
          ⟨hsub b (List.mem_cons_of_mem _ hb), fun hba => hna (hba ▸ hb)⟩
      obtain ⟨s1, heq1, hInv1, hmemb1, hpres1, hsubep1, hnode1⟩ :=
        ih s2 hInv2 hndrest hsub2
      have hincb : ∀ b, b ≠ a → (incident s2 nd b ↔ incident s nd b) := by
        intro b hba
        simp only [incident, hpres2 b hba]
      refine ⟨s1, hcasc ▸ heq1, hInv1, ?_, ?_, ?_, hnode1.trans hnode2⟩
      · intro b
        rw [hmemb1 b]
        by_cases hba : b = a
        · subst hba
          constructor
          · rintro ⟨h1, _⟩
            exact absurd ((hmemb2 b).mp h1).2 (by simp)
          · rintro ⟨h1, h2⟩
            exact absurd ⟨List.mem_cons_self _ _, hinca.mpr hinc⟩ h2
        · rw [hmemb2 b]
          constructor
          · rintro ⟨⟨h1, _⟩, h2⟩
            refine ⟨h1, ?_⟩
            rintro ⟨h3, h4⟩
            rcases List.mem_cons.mp h3 with h5 | h5
            · exact hba h5
            · exact h2 ⟨h5, (hincb b hba).mpr h4⟩
          · rintro ⟨h1, h2⟩
            refine ⟨⟨h1, hba⟩, ?_⟩
            rintro ⟨h3, h4⟩
            exact h2 ⟨List.mem_cons_of_mem _ h3, (hincb b hba).mp h4⟩
      · intro b hb
        have hb2 : b ∈ s2.stored_arc := by
          have := (hmemb1 b).mp hb
          exact this.1
        have hba : b ≠ a := ((hmemb2 b).mp hb2).2
        rw [hpres1 b hb, hpres2 b hba]
      · intro e he
        exact hsubep2 e (hsubep1 e he)
    · have hcasc : cascade nd (a :: rest) s = cascade nd rest s := by
        simp [cascade, hep, hinc]
      obtain ⟨s1, heq1, hInv1, hmemb1, hpres1, hsubep1, hnode1⟩ :=
        ih s hInv hndrest (fun b hb => hsub b (List.mem_cons_of_mem _ hb))
      refine ⟨s1, hcasc ▸ heq1, hInv1, ?_, hpres1, hsubep1, hnode1⟩
      intro b
      rw [hmemb1 b]
      by_cases hba : b = a
      · subst hba
        have hnotinc : ¬ incident s nd b := fun hi => hinc (hinca.mp hi)
        constructor
        · rintro ⟨h1, _⟩
          exact ⟨h1, fun hh => hnotinc hh.2⟩
        · rintro ⟨h1, _⟩
          exact ⟨h1, fun hh => hnotinc hh.2⟩
      · constructor
        · rintro ⟨h1, h2⟩
          refine ⟨h1, ?_⟩
          rintro ⟨h3, h4⟩
          rcases List.mem_cons.mp h3 with h5 | h5
          · exact hba h5
          · exact h2 ⟨h5, h4⟩
        · rintro ⟨h1, h2⟩
          exact ⟨h1, fun hh => h2 ⟨List.mem_cons_of_mem _ hh.1, hh.2⟩⟩

/-- Under the invariant, `remove_node` on a registered node succeeds: the
cascade removes exactly the incident arcs, the last matching entry of the
Registered Node Set is erased, and the invariant is preserved. -/
theorem remove_node_spec {s : GState} {n : Nat} (hInv : Inv s)
    (hn : n ∈ s.stored_node) :
    ∃ s1, remove_node n s = (true, s1)
      ∧ Inv s1
      ∧ (∀ b, b ∈ s1.stored_arc ↔ (b ∈ s.stored_arc ∧ ¬ incident s n b))
      ∧ s1.stored_node = eraseLast n s.stored_node
      ∧ (∀ e ∈ s1.endpoint_dic, e ∈ s.endpoint_dic) := by
  obtain ⟨sc, hceq, hcInv, hcmem, hcpres, hcsub, hcnode⟩ :=
    cascade_spec n s.stored_arc s hInv hInv.1 (fun b hb => hb)
  have hmemsimp : ∀ b, b ∈ sc.stored_arc ↔
      (b ∈ s.stored_arc ∧ ¬ incident s n b) := by
    intro b
    rw [hcmem b]
    constructor
    · rintro ⟨h1, h2⟩
      exact ⟨h1, fun hi => h2 ⟨h1, hi⟩⟩
    · rintro ⟨h1, h2⟩
      exact ⟨h1, fun hh => h2 hh.2⟩
  obtain ⟨d1, d2, d3, d4, d5, d6, d7, d8⟩ := hcInv
  refine ⟨{ sc with
      adjacency := eraseKey n sc.adjacency
      stored_node := eraseLast n sc.stored_node }, ?_, ?_, hmemsimp, ?_, hcsub⟩
  · simp [remove_node, hn, hceq]
  · refine ⟨d1, d2, keys_eraseKey_nodup d3, d4, d5, ?_, ?_, ?_⟩
    · intro e he
      have hm := d5 e he
      have hni := (hmemsimp e.1).mp hm
      have hlke : lookupKey e.1 s.endpoint_dic = some e.2 := by
        rw [← hcpres e.1 hm]
        exact lookupKey_of_mem d2 he
      have hne : e.2.1 ≠ n := by
        intro hh
        exact hni.2 ⟨e.2.1, e.2.2, hlke, Or.inl hh⟩
      rw [lookupKey_eraseKey_ne hne]
      exact d6 e he
    · intro p hp x hx
      exact d7 p (mem_of_mem_eraseKey hp) x hx
    · intro p hp
      exact d8 p (mem_of_mem_eraseKey hp)
  · simp [hcnode]

/-- Every operation respecting `okOp` preserves the invariant. -/
theorem applyOp_inv {s : GState} {op : Op} (hInv : Inv s)
    (hok : okOp s op = true) : Inv (applyOp op s) := by
  cases op with
  | addNode n =>
    refine add_node_inv hInv ?_
    intro e he
    have hok2 : s.endpoint_dic.all (fun e => e.2.1 != n) = true := hok
    have hall := List.all_eq_true.mp hok2 e he
    simpa using hall
  | addArc a f t =>
    refine add_arc_inv hInv ?_
    simp only [okOp, Bool.not_eq_true'] at hok
    intro hmem
    have helem : s.stored_arc.contains a = true := List.elem_eq_true_of_mem hmem
    rw [hok] at helem
    cases helem
  | removeNode n =>
    by_cases hn : n ∈ s.stored_node
    · obtain ⟨s1, heq, hInv1, _⟩ := remove_node_spec hInv hn
      simpa [applyOp, heq] using hInv1
    · simpa [applyOp, remove_node, hn] using hInv
  | removeArc a =>
    cases hep : lookupKey a s.endpoint_dic with
    | none => simpa [applyOp, remove_arc, hep] using hInv
    | some ft =>
      obtain ⟨f, t⟩ := ft
      obtain ⟨s2, heq, _, hInv2, _⟩ := remove_arc_prim_spec hInv hep
      simpa [applyOp, remove_arc, hep, heq] using hInv2
  | removeArcFT f t =>
    cases hfind : s.endpoint_dic.find? (fun e => e.2.1 == f && e.2.2 == t) with
    | none => simpa [applyOp, remove_arc_ft, hfind] using hInv
    | some e =>
      have hmem := List.mem_of_find?_eq_some hfind
      have hpred := List.find?_some hfind
      simp only [Bool.and_eq_true, beq_iff_eq] at hpred
      have he2 : e.2 = (f, t) := Prod.ext hpred.1 hpred.2
      have hep : lookupKey e.1 s.endpoint_dic = some (f, t) := by
        rw [lookupKey_of_mem hInv.2.1 hmem, he2]
      obtain ⟨s2, heq, _, hInv2, _⟩ := remove_arc_prim_spec hInv hep
      simpa [applyOp, remove_arc_ft, hfind, heq] using hInv2

/-- The invariant holds along any valid run. -/
theorem validFrom_inv :
    ∀ (ops : List Op) (s : GState), Inv s → validFrom s ops = true →
      Inv (runFrom s ops)
  | [], _, hInv, _ => hInv
  | op :: rest, s, hInv, hv => by
    simp only [validFrom, Bool.and_eq_true] at hv
    exact validFrom_inv rest (applyOp op s) (applyOp_inv hInv hv.1) hv.2

/-- The invariant, restated in the spec's iff-chain form. -/
theorem arcIffChain_of_inv {s : GState} (hInv : Inv s) : arcIffChain s := by
  obtain ⟨c1, c2, c3, c4, c5, c6, c7, c8⟩ := hInv
  intro a
  have huniq : ∀ m t1, (t1, a) ∈ (lookupKey m s.adjacency).getD [] →
      lookupKey a s.endpoint_dic = some (m, t1) := by
    intro m t1 hm
    cases hlk : lookupKey m s.adjacency with
    | none =>
      rw [hlk] at hm
      simp at hm
    | some b =>
      rw [hlk] at hm
      simp only [Option.getD_some] at hm
      exact c7 (m, b) (mem_of_lookupKey hlk) (t1, a) hm
  refine ⟨⟨fun h => c4 a h, fun h => ?_⟩, ⟨fun h => ?_, fun h => ?_⟩, ?_⟩
  · obtain ⟨p, hp⟩ := Option.isSome_iff_exists.mp h
    exact c5 _ (mem_of_lookupKey hp)
  · obtain ⟨ft, hep⟩ := Option.isSome_iff_exists.mp (c4 a h)
    obtain ⟨f, t⟩ := ft
    have h6 := c6 _ (mem_of_lookupKey hep)
    refine ⟨f, ⟨t, h6⟩, ?_⟩
    rintro m ⟨t1, hm⟩
    have h7 := huniq m t1 hm
    rw [hep] at h7
    exact (congrArg Prod.fst (Option.some.inj h7)).symm
  · obtain ⟨m, ⟨t1, hm⟩, _⟩ := h
    exact c5 _ (mem_of_lookupKey (huniq m t1 hm))
  · intro f t hep
    exact ⟨t, c6 _ (mem_of_lookupKey hep)⟩

/-- `NoLoops` is preserved by every operation whose `addArc` (if it is
one) is not a self-loop. -/
theorem applyOp_noloops {s : GState} {op : Op} (hInv : Inv s)
    (hnl : NoLoops s)
    (hsl : ∀ a f t, op = Op.addArc a f t → f ≠ t) :
    NoLoops (applyOp op s) := by
  cases op with
  | addNode n =>
    intro e he
    exact hnl e (by simpa [applyOp, add_node] using he)
  | addArc a f t =>
    intro e he
    rcases mem_insertOrUpdate (by simpa [applyOp, add_arc] using he) with h1 | h1
    · rw [h1]
      exact hsl a f t rfl
    · exact hnl e h1
  | removeNode n =>
    by_cases hn : n ∈ s.stored_node
    · obtain ⟨s1, heq, _, _, _, hsub⟩ := remove_node_spec hInv hn
      intro e he
      exact hnl e (hsub e (by simpa [applyOp, heq] using he))
    · intro e he
      exact hnl e (by simpa [applyOp, remove_node, hn] using he)
  | removeArc a =>
    cases hep : lookupKey a s.endpoint_dic with
    | none =>
      intro e he
      exact hnl e (by simpa [applyOp, remove_arc, hep] using he)
    | some ft =>
      obtain ⟨f, t⟩ := ft
      obtain ⟨s2, heq, _, _, _, _, _, hsub⟩ := remove_arc_prim_spec hInv hep
      intro e he
      exact hnl e (hsub e (by simpa [applyOp, remove_arc, hep, heq] using he))
  | removeArcFT f t =>
    cases hfind : s.endpoint_dic.find? (fun e => e.2.1 == f && e.2.2 == t) with
    | none =>
      intro e he
      exact hnl e (by simpa [applyOp, remove_arc_ft, hfind] using he)
    | some e0 =>
      have hmem := List.mem_of_find?_eq_some hfind
      have hpred := List.find?_some hfind
      simp only [Bool.and_eq_true, beq_iff_eq] at hpred
      have he2 : e0.2 = (f, t) := Prod.ext hpred.1 hpred.2
      have hep : lookupKey e0.1 s.endpoint_dic = some (f, t) := by
        rw [lookupKey_of_mem hInv.2.1 hmem, he2]
      obtain ⟨s2, heq, _, _, _, _, _, hsub⟩ := remove_arc_prim_spec hInv hep
      intro e he
      exact hnl e (hsub e (by simpa [applyOp, remove_arc_ft, hfind, heq] using he))

/-- Invariant and loop-freedom hold along any valid, self-loop-free run. -/
theorem validFrom_noloops :
    ∀ (ops : List Op) (s : GState), Inv s → NoLoops s →
      validFrom s ops = true → selfLoopFree ops = true →
      Inv (runFrom s ops) ∧ NoLoops (runFrom s ops)
  | [], _, hInv, hnl, _, _ => ⟨hInv, hnl⟩
  | op :: rest, s, hInv, hnl, hv, hsl => by
    simp only [validFrom, Bool.and_eq_true] at hv
    have hsl2 : (∀ a f t, op = Op.addArc a f t → f ≠ t) ∧
        selfLoopFree rest = true := by
      cases op with
      | addArc a f t =>
        simp only [selfLoopFree, Bool.and_eq_true, bne_iff_ne, ne_eq] at hsl
        exact ⟨fun a1 f1 t1 hh => by
          injection hh with h1 h2 h3
          exact h2 ▸ h3 ▸ hsl.1, hsl.2⟩
      | addNode n => exact ⟨by simp, by simpa [selfLoopFree] using hsl⟩
      | removeNode n => exact ⟨by simp, by simpa [selfLoopFree] using hsl⟩
      | removeArc a => exact ⟨by simp, by simpa [selfLoopFree] using hsl⟩
      | removeArcFT f t => exact ⟨by simp, by simpa [selfLoopFree] using hsl⟩
    exact validFrom_noloops rest (applyOp op s) (applyOp_inv hInv hv.1)
      (applyOp_noloops hInv hnl hsl2.1) hv.2 hsl2.2

/-! ### Claims -/

/-- C1, counterexample: after the successful operations `add_node 1`,
`add_arc 7 1 2`, `add_node 1` the arc `7` is in the Registered Arc Set and
the Endpoint Index but in no Adjacency Index bucket (the re-registration
of node `1` cleared its bucket), so the claimed iff-chain fails. -/
theorem C1_counterexample :
    7 ∈ all_arc (run [Op.addNode 1, Op.addArc 7 1 2, Op.addNode 1])
    ∧ (lookupKey 7
        (run [Op.addNode 1, Op.addArc 7 1 2, Op.addNode 1]).endpoint_dic).isSome
        = true
    ∧ ¬ ∃ n, inBucketOf (run [Op.addNode 1, Op.addArc 7 1 2, Op.addNode 1]) n 7 := by
  have hstate : run [Op.addNode 1, Op.addArc 7 1 2, Op.addNode 1] =
      ⟨[1, 1], [7], [(7, (1, 2))], [(1, [])]⟩ := by decide
  refine ⟨by decide, by decide, ?_⟩
  rw [hstate]
  rintro ⟨n, t, hmem⟩
  by_cases h1 : (1 : Nat) = n
  · rw [show lookupKey n ([(1, [])] :
      List (Nat × List (Nat × Nat))) = some [] from by simp [lookupKey, h1]] at hmem
    simp at hmem
  · rw [show lookupKey n ([(1, [])] :
      List (Nat × List (Nat × Nat))) = none from by simp [lookupKey, h1]] at hmem
    simp at hmem

/-- C1 (amended): along every run of successful operations in which
`add_node` is only applied to nodes that are not the indexed source of a
registered arc and `add_arc` is only applied to unregistered arcs, an arc
identity appears in the Registered Arc Set iff it appears in the Endpoint
Index iff it appears in exactly one Adjacency Index bucket, namely the
bucket of its source node. -/
theorem C1_arc_iff_chain_on_valid_runs (ops : List Op)
    (h : validFrom GState.empty ops = true) : arcIffChain (run ops) :=
  arcIffChain_of_inv (validFrom_inv ops GState.empty Inv_empty h)

theorem C1_arc_iff_chain_on_valid_runs_witness :
    validFrom GState.empty
        [Op.addNode 1, Op.addNode 2, Op.addArc 7 1 2, Op.addArc 8 2 1] = true
    ∧ arcIffChain
        (run [Op.addNode 1, Op.addNode 2, Op.addArc 7 1 2, Op.addArc 8 2 1]) :=
  ⟨by decide, C1_arc_iff_chain_on_valid_runs _ (by decide)⟩

/-- C2, counterexample: on the default-constructed container `from = 1`
has no adjacency bucket, yet `add_arc 9 1 2` (with no resource failure
injected) returns normally — the container auto-creates the bucket instead
of failing. -/
theorem C2_counterexample :
    lookupKey 1 GState.empty.adjacency = none
    ∧ (add_arc_f none 9 1 2 GState.empty).1 = true
    ∧ lookupKey 1 (add_arc_f none 9 1 2 GState.empty).2.adjacency
        = some [(2, 9)] := by
  decide

/-- C2 (amended): calling `add_arc(arc, from, to)` when `from` has no
adjacency bucket succeeds (absent resource failure): `operator[]`
auto-creates the bucket, which afterwards holds exactly the entry
`(to, arc)`, and `from` is not added to the Registered Node Set. -/
theorem C2_add_arc_autocreates_bucket (s : GState) (a f t : Nat)
    (h : lookupKey f s.adjacency = none) :
    (add_arc_f none a f t s).1 = true
    ∧ lookupKey f (add_arc_f none a f t s).2.adjacency = some [(t, a)]
    ∧ all_node (add_arc_f none a f t s).2 = all_node s := by
  have hred : add_arc_f none a f t s = (true, add_arc a f t s) := by
    simp [add_arc_f]
  rw [hred]
  refine ⟨rfl, ?_, rfl⟩
  rw [show (add_arc a f t s).adjacency = bucketPush f (t, a) s.adjacency from rfl,
    lookupKey_bucketPush_self, h]
  rfl

theorem C2_add_arc_autocreates_bucket_witness :
    lookupKey 3 GState.empty.adjacency = none
    ∧ ((add_arc_f none 9 3 4 GState.empty).1 = true
      ∧ lookupKey 3 (add_arc_f none 9 3 4 GState.empty).2.adjacency
          = some [(4, 9)]
      ∧ all_node (add_arc_f none 9 3 4 GState.empty).2
          = all_node GState.empty) :=
  ⟨by decide, C2_add_arc_autocreates_bucket GState.empty 9 3 4 (by decide)⟩

/-- C3: the rollback of `add_arc` is not failure-atomic, contradicting the
function's own "Strong guarantee" doc comment.  Failing input: the state
reached by `add_node 1; add_arc 9 1 2` (arc `9` registered with endpoints
`(1, 2)`), then `add_arc 9 3 4` with a resource failure injected at the
adjacency-append step.  The call reports failure, but the rollback path
`endpoint_dic_.erase(arc)` has erased the pre-existing endpoint entry of
arc `9`, and the bucket auto-created for node `3` remains: the post-call
state differs from the pre-call state. -/
theorem C3_add_arc_rollback_not_atomic :
    (add_arc_f (some 3) 9 3 4 (run [Op.addNode 1, Op.addArc 9 1 2])).1 = false
    ∧ lookupKey 9 (run [Op.addNode 1, Op.addArc 9 1 2]).endpoint_dic
        = some (1, 2)
    ∧ lookupKey 9
        (add_arc_f (some 3) 9 3 4
          (run [Op.addNode 1, Op.addArc 9 1 2])).2.endpoint_dic = none
    ∧ lookupKey 3
        (add_arc_f (some 3) 9 3 4
          (run [Op.addNode 1, Op.addArc 9 1 2])).2.adjacency = some []
    ∧ (add_arc_f (some 3) 9 3 4 (run [Op.addNode 1, Op.addArc 9 1 2])).2
        ≠ run [Op.addNode 1, Op.addArc 9 1 2] := by
  decide

/-- C4, counterexample: on the state where node `1` is already registered,
`add_node 1; remove_node 1` returns `true` but `all_node()` still contains
`1` — only the most recently added duplicate was removed. -/
theorem C4_counterexample :
    (remove_node 1 (add_node 1 (run [Op.addNode 1]))).1 = true
    ∧ 1 ∈ all_node (remove_node 1 (add_node 1 (run [Op.addNode 1]))).2 := by
  decide

/-- C4 (amended): for every node `n` and every graph state satisfying the
arc-consistency invariant, in which `n` is not currently registered and no
endpoint entry has `n` as its source, `add_node n` followed by
`remove_node n` returns `true` and afterwards `all_node()` does not
contain `n`. -/
theorem C4_add_remove_roundtrip (s : GState) (n : Nat) (hInv : Inv s)
    (hn : n ∉ all_node s) (hsrc : ∀ e ∈ s.endpoint_dic, e.2.1 ≠ n) :
    (remove_node n (add_node n s)).1 = true
    ∧ n ∉ all_node (remove_node n (add_node n s)).2 := by
  have hInv1 : Inv (add_node n s) := add_node_inv hInv hsrc
  have hn1 : n ∈ (add_node n s).stored_node := by
    simp [add_node]
  obtain ⟨s1, heq, _, _, hnode, _⟩ := remove_node_spec hInv1 hn1
  rw [heq]
  refine ⟨rfl, ?_⟩
  show n ∉ s1.stored_node
  rw [hnode, show (add_node n s).stored_node = s.stored_node ++ [n] from rfl,
    eraseLast_append_singleton]
  exact hn

theorem C4_add_remove_roundtrip_witness :
    (Inv (run [Op.addNode 1, Op.addNode 2, Op.addArc 7 1 2])
      ∧ 5 ∉ all_node (run [Op.addNode 1, Op.addNode 2, Op.addArc 7 1 2])
      ∧ ∀ e ∈ (run [Op.addNode 1, Op.addNode 2, Op.addArc 7 1 2]).endpoint_dic,
          e.2.1 ≠ 5)
    ∧ ((remove_node 5
          (add_node 5 (run [Op.addNode 1, Op.addNode 2, Op.addArc 7 1 2]))).1
          = true
      ∧ 5 ∉ all_node (remove_node 5
          (add_node 5 (run [Op.addNode 1, Op.addNode 2, Op.addArc 7 1 2]))).2) :=
  ⟨⟨by decide, by decide, by decide⟩,
    C4_add_remove_roundtrip _ 5 (by decide) (by decide) (by decide)⟩

/-- C5, counterexample: in the state reached by `add_node 1; add_node 2; `
`add_arc 9 1 2; add_node 1` (the re-registration of node `1` cleared its
bucket), node `2` is registered and arc `9` has indexed target `2`, yet
`remove_node 2` leaves `9` in `all_arc()` — the cascade trips its error
wire and rolls everything back. -/
theorem C5_counterexample :
    2 ∈ all_node (run [Op.addNode 1, Op.addNode 2, Op.addArc 9 1 2, Op.addNode 1])
    ∧ lookupKey 9
        (run [Op.addNode 1, Op.addNode 2, Op.addArc 9 1 2,
          Op.addNode 1]).endpoint_dic = some (1, 2)
    ∧ 9 ∈ all_arc (remove_node 2
        (run [Op.addNode 1, Op.addNode 2, Op.addArc 9 1 2, Op.addNode 1])).2 := by
  decide

/-- C5 (amended): for every graph satisfying the arc-consistency invariant
and every registered node `n`, `remove_node n` returns `true` and removes
every arc whose indexed source or target equals `n`: afterwards
`all_arc()` contains none of them. -/
theorem C5_remove_node_cascades (s : GState) (n : Nat) (hInv : Inv s)
    (hn : n ∈ all_node s) :
    (remove_node n s).1 = true
    ∧ ∀ a f t, lookupKey a s.endpoint_dic = some (f, t) → (f = n ∨ t = n) →
        a ∉ all_arc (remove_node n s).2 := by
  obtain ⟨s1, heq, _, hmem, _, _⟩ := remove_node_spec hInv hn
  rw [heq]
  refine ⟨rfl, ?_⟩
  intro a f t hep hor hmem2
  exact ((hmem a).mp hmem2).2 ⟨f, t, hep, hor⟩

theorem C5_remove_node_cascades_witness :
    (Inv (run [Op.addNode 1, Op.addNode 2, Op.addArc 7 1 2, Op.addArc 8 2 1])
      ∧ 2 ∈ all_node
          (run [Op.addNode 1, Op.addNode 2, Op.addArc 7 1 2, Op.addArc 8 2 1]))
    ∧ ((remove_node 2
          (run [Op.addNode 1, Op.addNode 2, Op.addArc 7 1 2, Op.addArc 8 2 1])).1
          = true
      ∧ ∀ a f t, lookupKey a
            (run [Op.addNode 1, Op.addNode 2, Op.addArc 7 1 2,
              Op.addArc 8 2 1]).endpoint_dic = some (f, t) →
          (f = 2 ∨ t = 2) →
          a ∉ all_arc (remove_node 2
            (run [Op.addNode 1, Op.addNode 2, Op.addArc 7 1 2,
              Op.addArc 8 2 1])).2) :=
  ⟨⟨by decide, by decide⟩, C5_remove_node_cascades _ 2 (by decide) (by decide)⟩

/-- C6, counterexample: after the successful operations `add_node 1; `
`add_arc 5 1 1` (a self-loop), `target 5` is node `1` but
`is_connect 1 5` classifies node `1` as the source (`1`), not as the
target (`-1`): the source test takes precedence. -/
theorem C6_counterexample :
    5 ∈ all_arc (run [Op.addNode 1, Op.addArc 5 1 1])
    ∧ target 5 (run [Op.addNode 1, Op.addArc 5 1 1]) = some 1
    ∧ ¬ is_connect 1 5 (run [Op.addNode 1, Op.addArc 5 1 1]) = -1 := by
  decide

/-- C6 (amended): along every valid run (as in the amended C1) that
registers no self-loop, every arc `a` of `all_arc()` has non-null
`source(a)` and `target(a)`, `is_connect(source(a), a) = 1` (source), and
`is_connect(target(a), a) = -1` (target). -/
theorem C6_endpoint_consistency (ops : List Op)
    (hv : validFrom GState.empty ops = true)
    (hsl : selfLoopFree ops = true) :
    ∀ a ∈ all_arc (run ops),
      (source a (run ops)).isSome = true
      ∧ (target a (run ops)).isSome = true
      ∧ (∀ f, source a (run ops) = some f → is_connect f a (run ops) = 1)
      ∧ (∀ t, target a (run ops) = some t → is_connect t a (run ops) = -1) := by
  obtain ⟨hInv, hnl⟩ := validFrom_noloops ops GState.empty Inv_empty
    (by intro e he; simp [GState.empty] at he) hv hsl
  intro a ha
  obtain ⟨ft, hep⟩ := Option.isSome_iff_exists.mp (hInv.2.2.2.1 a ha)
  obtain ⟨f, t⟩ := ft
  have hep2 : lookupKey a (run ops).endpoint_dic = some (f, t) := hep
  have hnlft : f ≠ t := by
    have := hnl (a, (f, t)) (mem_of_lookupKey hep)
    simpa using this
  refine ⟨by simp [source, hep2], by simp [target, hep2], ?_, ?_⟩
  · intro f1 hf1
    rw [show source a (run ops) = some f from by simp [source, hep2]] at hf1
    rw [← Option.some.inj hf1]
    simp [is_connect, hep2]
  · intro t1 ht1
    rw [show target a (run ops) = some t from by simp [target, hep2]] at ht1
    rw [← Option.some.inj ht1]
    simp [is_connect, hep2, hnlft]

theorem C6_endpoint_consistency_witness :
    (validFrom GState.empty
        [Op.addNode 1, Op.addNode 2, Op.addArc 7 1 2] = true
      ∧ selfLoopFree [Op.addNode 1, Op.addNode 2, Op.addArc 7 1 2] = true
      ∧ 7 ∈ all_arc (run [Op.addNode 1, Op.addNode 2, Op.addArc 7 1 2]))
    ∧ ((source 7 (run [Op.addNode 1, Op.addNode 2, Op.addArc 7 1 2])).isSome
        = true
      ∧ (target 7 (run [Op.addNode 1, Op.addNode 2, Op.addArc 7 1 2])).isSome
        = true
      ∧ (∀ f, source 7 (run [Op.addNode 1, Op.addNode 2, Op.addArc 7 1 2])
          = some f →
          is_connect f 7 (run [Op.addNode 1, Op.addNode 2, Op.addArc 7 1 2]) = 1)
      ∧ (∀ t, target 7 (run [Op.addNode 1, Op.addNode 2, Op.addArc 7 1 2])
          = some t →
          is_connect t 7 (run [Op.addNode 1, Op.addNode 2, Op.addArc 7 1 2])
            = -1)) :=
  ⟨⟨by decide, by decide, by decide⟩,
    C6_endpoint_consistency _ (by decide) (by decide) 7 (by decide)⟩

/-- C7: the private removal primitive is check-then-act: whenever it
returns `false` the state is exactly the pre-call state (all three lookups
happen before any mutation), and on success it performs exactly the three
erasures — the adjacency entry, the endpoint entry, and the arc-set entry
— after its three lookups succeeded. -/
theorem C7_remove_arc_prim_check_then_act (s : GState) (a f t : Nat) :
    ((remove_arc_prim a f t s).1 = false → (remove_arc_prim a f t s).2 = s)
    ∧ ((remove_arc_prim a f t s).1 = true →
        a ∈ s.stored_arc
        ∧ (∃ b, lookupKey f s.adjacency = some b ∧ (t, a) ∈ b)
        ∧ (remove_arc_prim a f t s).2 =
            { s with
                stored_arc := eraseLast a s.stored_arc
                endpoint_dic := eraseKey a s.endpoint_dic
                adjacency := eraseBucketEntry f (t, a) s.adjacency }) := by
  by_cases h1 : a ∈ s.stored_arc
  · cases hlk : lookupKey f s.adjacency with
    | none =>
      have heq : remove_arc_prim a f t s = (false, s) := by
        simp [remove_arc_prim, h1, hlk]
      rw [heq]
      exact ⟨fun _ => rfl, fun hh => nomatch hh⟩
    | some b =>
      by_cases h2 : (t, a) ∈ b
      · have heq : remove_arc_prim a f t s =
            (true, { s with
                stored_arc := eraseLast a s.stored_arc
                endpoint_dic := eraseKey a s.endpoint_dic
                adjacency := eraseBucketEntry f (t, a) s.adjacency }) := by
          simp [remove_arc_prim, h1, hlk, h2]
        rw [heq]
        refine ⟨?_, ?_⟩
        · intro hh
          simp at hh
        · intro _
          exact ⟨h1, ⟨b, rfl, h2⟩, rfl⟩
      · have heq : remove_arc_prim a f t s = (false, s) := by
          simp [remove_arc_prim, h1, hlk, h2]
        rw [heq]
        exact ⟨fun _ => rfl, fun hh => nomatch hh⟩
  · have heq : remove_arc_prim a f t s = (false, s) := by
      simp [remove_arc_prim, h1]
    rw [heq]
    exact ⟨fun _ => rfl, fun hh => nomatch hh⟩

theorem C7_remove_arc_prim_check_then_act_witness :
    (remove_arc_prim 1 2 3 (run [Op.addNode 2, Op.addArc 1 2 3])).1 = true
    ∧ (1 ∈ (run [Op.addNode 2, Op.addArc 1 2 3]).stored_arc
      ∧ (∃ b, lookupKey 2 (run [Op.addNode 2, Op.addArc 1 2 3]).adjacency
            = some b ∧ (3, 1) ∈ b)
      ∧ (remove_arc_prim 1 2 3 (run [Op.addNode 2, Op.addArc 1 2 3])).2 =
          { run [Op.addNode 2, Op.addArc 1 2 3] with
              stored_arc :=
                eraseLast 1 (run [Op.addNode 2, Op.addArc 1 2 3]).stored_arc
              endpoint_dic :=
                eraseKey 1 (run [Op.addNode 2, Op.addArc 1 2 3]).endpoint_dic
              adjacency :=
                eraseBucketEntry 2 (3, 1)
                  (run [Op.addNode 2, Op.addArc 1 2 3]).adjacency }) :=
  ⟨by decide,
    (C7_remove_arc_prim_check_then_act
      (run [Op.addNode 2, Op.addArc 1 2 3]) 1 2 3).2 (by decide)⟩

/-- C8: when several Registered Node Set entries equal the argument of
`remove_node`, the most recently added one is removed (the reverse `find`
erases the last occurrence), and the same rule governs the Registered Arc
Set entry erased by arc removal. -/
theorem C8_last_in_first_matched :
    (∀ (s : GState) (n : Nat) (l1 l2 : List Nat), Inv s →
        s.stored_node = l1 ++ n :: l2 → n ∉ l2 →
        (remove_node n s).1 = true
        ∧ (remove_node n s).2.stored_node = l1 ++ l2)
    ∧ (∀ (s : GState) (a f t : Nat) (l1 l2 : List Nat),
        lookupKey a s.endpoint_dic = some (f, t) →
        s.stored_arc = l1 ++ a :: l2 → a ∉ l2 →
        (∃ b, lookupKey f s.adjacency = some b ∧ (t, a) ∈ b) →
        (remove_arc a s).1 = true
        ∧ (remove_arc a s).2.stored_arc = l1 ++ l2) := by
  constructor
  · intro s n l1 l2 hInv hdec hnl2
    have hn : n ∈ s.stored_node := by
      rw [hdec]
      exact List.mem_append_right _ (List.mem_cons_self _ _)
    obtain ⟨s1, heq, _, _, hnode, _⟩ := remove_node_spec hInv hn
    rw [heq]
    refine ⟨rfl, ?_⟩
    show s1.stored_node = l1 ++ l2
    rw [hnode, hdec, eraseLast_decomp hnl2]
  · intro s a f t l1 l2 hep hdec hnl2 hex
    obtain ⟨b, hlk, hb⟩ := hex
    have hmem : a ∈ s.stored_arc := by
      rw [hdec]
      exact List.mem_append_right _ (List.mem_cons_self _ _)
    have heq : remove_arc a s =
        (true, { s with
            stored_arc := eraseLast a s.stored_arc
            endpoint_dic := eraseKey a s.endpoint_dic
            adjacency := eraseBucketEntry f (t, a) s.adjacency }) := by
      simp [remove_arc, hep, remove_arc_prim, hmem, hlk, hb]
    rw [heq]
    refine ⟨rfl, ?_⟩
    show eraseLast a s.stored_arc = l1 ++ l2
    rw [hdec, eraseLast_decomp hnl2]

theorem C8_last_in_first_matched_witness :
    ((remove_node 1
        (run [Op.addNode 1, Op.addNode 5, Op.addNode 1, Op.addNode 9])).1 = true
      ∧ (remove_node 1
          (run [Op.addNode 1, Op.addNode 5, Op.addNode 1,
            Op.addNode 9])).2.stored_node = [1, 5] ++ [9])
    ∧ ((remove_arc 7
          (run [Op.addNode 1, Op.addArc 7 1 2, Op.addArc 7 1 2])).1 = true
      ∧ (remove_arc 7
          (run [Op.addNode 1, Op.addArc 7 1 2,
            Op.addArc 7 1 2])).2.stored_arc = [7] ++ []) :=
  ⟨C8_last_in_first_matched.1 _ 1 [1, 5] [9] (by decide) (by decide) (by decide),
    C8_last_in_first_matched.2 _ 7 1 2 [7] [] (by decide) (by decide) (by decide)
      ⟨[(2, 7), (2, 7)], by decide, by decide⟩⟩

/-- C9: `child_nodes(parent)` on a parent with no adjacency bucket fails
with the defined, catchable `std::out_of_range` thrown by
`unordered_map::at` (modelled as `none`), leaving the graph unchanged (the
operation is `const` — a pure function of the state); on a parent with a
bucket it returns the bucket's target components in insertion order. -/
theorem C9_child_nodes_defined_error (s : GState) (parent : Nat) :
    (lookupKey parent s.adjacency = none → child_nodes parent s = none)
    ∧ (∀ b, lookupKey parent s.adjacency = some b →
        child_nodes parent s = some (b.map Prod.fst)) := by
  constructor
  · intro h
    simp [child_nodes, h]
  · intro b h
    simp [child_nodes, h]

theorem C9_child_nodes_defined_error_witness :
    child_nodes 5 (run [Op.addNode 1, Op.addArc 7 1 2]) = none
    ∧ child_nodes 1 (run [Op.addNode 1, Op.addArc 7 1 2]) = some [2] :=
  ⟨(C9_child_nodes_defined_error (run [Op.addNode 1, Op.addArc 7 1 2]) 5).1
      (by decide),
    by
      have h := (C9_child_nodes_defined_error
        (run [Op.addNode 1, Op.addArc 7 1 2]) 1).2 [(2, 7)] (by decide)
      simpa using h⟩

theorem remove_arc_prim_stored_node (a f t : Nat) (s : GState) :
    (remove_arc_prim a f t s).2.stored_node = s.stored_node := by
  by_cases h1 : a ∈ s.stored_arc
  · cases hlk : lookupKey f s.adjacency with
    | none => simp [remove_arc_prim, h1, hlk]
    | some b =>
      by_cases h2 : (t, a) ∈ b
      · simp [remove_arc_prim, h1, hlk, h2]
      · simp [remove_arc_prim, h1, hlk, h2]
  · simp [remove_arc_prim, h1]

/-- C10: the three arc operations never touch the Registered Node Set —
`all_node()` is identical before and after each of them, whether the call
succeeds or fails (including every resource-failure injection point of
`add_arc`). -/
theorem C10_arc_ops_preserve_node_set (s : GState) (a f t : Nat)
    (inj : Option Nat) :
    all_node (add_arc_f inj a f t s).2 = all_node s
    ∧ all_node (remove_arc a s).2 = all_node s
    ∧ all_node (remove_arc_ft f t s).2 = all_node s := by
  refine ⟨?_, ?_, ?_⟩
  · show (add_arc_f inj a f t s).2.stored_node = s.stored_node
    unfold add_arc_f add_arc
    repeat' split
    all_goals rfl
  · show (remove_arc a s).2.stored_node = s.stored_node
    cases hep : lookupKey a s.endpoint_dic with
    | none => simp [remove_arc, hep]
    | some ft =>
      obtain ⟨f1, t1⟩ := ft
      have hdel : (remove_arc a s).2 = (remove_arc_prim a f1 t1 s).2 := by
        simp [remove_arc, hep]
      rw [hdel, remove_arc_prim_stored_node]
  · show (remove_arc_ft f t s).2.stored_node = s.stored_node
    cases hfind : s.endpoint_dic.find? (fun e => e.2.1 == f && e.2.2 == t) with
    | none => simp [remove_arc_ft, hfind]
    | some e =>
      have hdel : (remove_arc_ft f t s).2 = (remove_arc_prim e.1 f t s).2 := by
        simp [remove_arc_ft, hfind]
      rw [hdel, remove_arc_prim_stored_node]

end AdjList
